import Mathlib

/-!
Verification of the two data structures of the repository:
an unbalanced binary search tree (`binary-tree.cpp`) and a singly linked
card deck with a stable selection sort and a Fisher-Yates shuffle
(`stable-selection-sort.cpp`).  Every definition is a direct functional
embedding of the corresponding C++ function.
-/

namespace BinTree

/-- Shape of `tree_node<T>` (value, left child, right child); the parent
back-pointer of the C++ node is representation-only and carries no data. -/
inductive BTree where
  | nil : BTree
  | node (l : BTree) (v : Int) (r : BTree) : BTree
deriving DecidableEq, Repr

/-- In-order traversal of the tree. -/
def inorder : BTree → List Int
  | .nil => []
  | .node l v r => inorder l ++ v :: inorder r

/-- Number of nodes of the tree. -/
def numNodes : BTree → Nat
  | .nil => 0
  | .node l _ r => numNodes l + numNodes r + 1

/-- Embedding of `tree::find_at` composed with the null test of
`tree::contains`: descend comparing with `<` on both sides. -/
def containsB : BTree → Int → Bool
  | .nil, _ => false
  | .node l x r, v =>
    if v < x then containsB l v
    else if x < v then containsB r v
    else true

/-- Embedding of `tree::try_insert`: descend by comparison, attach the new
value as a leaf where a null child is met, fail (`none`) on an equal value. -/
def try_insert : BTree → Int → Option BTree
  | .nil, _ => none
  | .node l x r, v =>
    if v < x then
      match l with
      | .nil => some (.node (.node .nil v .nil) x r)
      | .node a b c => (try_insert (.node a b c) v).map (fun l' => .node l' x r)
    else if x < v then
      match r with
      | .nil => some (.node l x (.node .nil v .nil))
      | .node a b c => (try_insert (.node a b c) v).map (fun r' => .node l x r')
    else none

/-- Value held by the leftmost node; the node located by the descent loop of
`tree::extract_min_node`.  (Unused `nil` branch: the C++ caller always passes
a non-null subtree.) -/
def min_val : BTree → Int
  | .nil => 0
  | .node .nil x _ => x
  | .node (.node a b c) _ _ => min_val (.node a b c)

/-- Embedding of `tree::extract_min_node`: remove the leftmost node,
the leaf case and the single-child case both replace it by its right child. -/
def erase_min : BTree → BTree
  | .nil => .nil
  | .node .nil _ r => r
  | .node (.node a b c) x r => .node (erase_min (.node a b c)) x r

/-- Embedding of `tree::erase` past a successful `find_at`: descend to the
node holding the value and apply the case split of `tree::extract_node`
(leaf / single child / two children with in-order-successor promotion). -/
def eraseT : BTree → Int → BTree
  | .nil, _ => .nil
  | .node l x r, v =>
    if v < x then .node (eraseT l v) x r
    else if x < v then .node l x (eraseT r v)
    else
      match l, r with
      | .nil, .nil => .nil
      | .nil, .node a b c => .node a b c
      | .node a b c, .nil => .node a b c
      | .node a b c, .node d e f =>
        .node (.node a b c) (min_val (.node d e f)) (erase_min (.node d e f))

/-- State of a `tree<int>` object: root pointer and the `tree_size` counter. -/
structure TreeS where
  root : BTree
  tree_size : Nat
deriving DecidableEq, Repr

/-- Embedding of `tree::insert` / `tree::emplace`: on an empty tree
(`size() == 0`) the new node becomes the root; otherwise `try_insert`
either attaches it (success) or reports a duplicate (failure, tree kept). -/
def insertS (s : TreeS) (v : Int) : TreeS × Bool :=
  if s.tree_size = 0 then (⟨.node .nil v .nil, s.tree_size + 1⟩, true)
  else
    match try_insert s.root v with
    | some t' => (⟨t', s.tree_size + 1⟩, true)
    | none => (s, false)

/-- Embedding of `tree::erase`: when `find_at` locates the value, extract the
node and decrement the counter; otherwise do nothing. -/
def eraseS (s : TreeS) (v : Int) : TreeS :=
  if containsB s.root v then ⟨eraseT s.root v, s.tree_size - 1⟩ else s

/-- The binary-search-tree ordering invariant: at every node, the values of
the left subtree are strictly below the node's value and the values of the
right subtree strictly above. -/
inductive BST : BTree → Prop where
  | nil : BST .nil
  | node {l r : BTree} {v : Int} :
      (∀ x ∈ inorder l, x < v) → (∀ x ∈ inorder r, v < x) →
      BST l → BST r → BST (.node l v r)

/-- The counter of a tree state agrees with the number of nodes. -/
def WfS (s : TreeS) : Prop := s.tree_size = numNodes s.root

/-- One operation of the external interface exercised by the test driver. -/
inductive Op where
  | ins (v : Int) : Op
  | del (v : Int) : Op

/-- Apply one operation to a tree state. -/
def applyOp (s : TreeS) : Op → TreeS
  | .ins v => (insertS s v).1
  | .del v => eraseS s v

/-- Run a sequence of operations from a freshly constructed (empty) tree. -/
def runOps (ops : List Op) : TreeS :=
  ops.foldl applyOp ⟨.nil, 0⟩

/-- Direction taken during a descent, and paths as lists of directions. -/
inductive Dir where
  | left : Dir
  | right : Dir
deriving DecidableEq, Repr

/-- The path followed by `tree::find_at` down to the node holding `v`
(`none` when the descent reaches a null child). -/
def findPath : BTree → Int → Option (List Dir)
  | .nil, _ => none
  | .node l x r, v =>
    if v < x then (findPath l v).map (Dir.left :: ·)
    else if x < v then (findPath r v).map (Dir.right :: ·)
    else some []

/-- Subtree reached from the root along a path. -/
def subtreeAt : BTree → List Dir → Option BTree
  | t, [] => some t
  | .nil, _ :: _ => none
  | .node l _ _, .left :: p => subtreeAt l p
  | .node _ _ r, .right :: p => subtreeAt r p

/-- Replace the subtree at the end of a path, keeping everything else. -/
def replaceAt : BTree → List Dir → BTree → BTree
  | _, [], s => s
  | .nil, _ :: _, _ => .nil
  | .node l x r, .left :: p, s => .node (replaceAt l p s) x r
  | .node l x r, .right :: p, s => .node l x (replaceAt r p s)

end BinTree

namespace DeckSpec

/-- `CardRank`: the thirteen ranks; underlying character codes `'2'`..`62`. -/
inductive CardRank where
  | TWO | THREE | FOUR | FIVE | SIX | SEVEN | EIGHT | NINE | TEN | JACK | QUEEN | KING | ACE
deriving DecidableEq, Repr, Fintype

/-- Underlying value of a rank (consecutive `unsigned char` codes from `'2'` = 50). -/
def rankVal : CardRank → Nat
  | .TWO => 50
  | .THREE => 51
  | .FOUR => 52
  | .FIVE => 53
  | .SIX => 54
  | .SEVEN => 55
  | .EIGHT => 56
  | .NINE => 57
  | .TEN => 58
  | .JACK => 59
  | .QUEEN => 60
  | .KING => 61
  | .ACE => 62

/-- `CardSuite`: the four suits with their character codes. -/
inductive CardSuite where
  | SPADE | HEART | DIAMOND | CLUB
deriving DecidableEq, Repr, Fintype

/-- Underlying value of a suit. -/
def suiteVal : CardSuite → Nat
  | .SPADE => 83
  | .HEART => 72
  | .DIAMOND => 68
  | .CLUB => 67

/-- A card: a (suit, rank) pair. -/
structure Card where
  suite : CardSuite
  rank : CardRank
deriving DecidableEq, Repr, Fintype

instance : Inhabited Card := ⟨⟨.SPADE, .TWO⟩⟩

/-- `Card::operator<`: compares the ranks only. -/
def cardLt (a b : Card) : Bool := decide (rankVal a.rank < rankVal b.rank)

/-- `Card::operator==`: compares the ranks only. -/
def cardEq (a b : Card) : Bool := decide (a.rank = b.rank)

/-- State of a `Deck`: the chain of cards hanging off the sentinel node, in
front-to-back order, plus the `deckSize` counter. -/
structure Deck where
  cards : List Card
  deckSize : Nat
deriving DecidableEq, Repr

/-- The `deckSize` counter agrees with the length of the chain. -/
def WfD (d : Deck) : Prop := d.deckSize = d.cards.length

/-- `Deck::extractAfter` at position `pos` (position 0 is the sentinel,
position `i+1` the node holding `cards[i]`; the successor of position `pos`
holds `cards[pos]`): unlink and return the successor node.  `none` when an
assertion (`node != nullptr` / `node->next != nullptr`) would fail because
no successor exists. -/
def extractAfter (cards : List Card) (pos : Nat) : Option (Card × List Card) :=
  if h : pos < cards.length then some (cards.get ⟨pos, h⟩, cards.eraseIdx pos) else none

/-- `Deck::eraseAfter`: extract the successor node, free it, decrement the counter. -/
def eraseAfterD (d : Deck) (pos : Nat) : Option Deck :=
  (extractAfter d.cards pos).map (fun p => ⟨p.2, d.deckSize - 1⟩)

/-- `Deck::popFront`: `eraseAfter(beforeBegin())`. -/
def popFrontD (d : Deck) : Option Deck := eraseAfterD d 0

/-- `Deck::pushFront`: `insertAfter(beforeBegin(), card)`. -/
def pushFrontD (d : Deck) (c : Card) : Deck := ⟨c :: d.cards, d.deckSize + 1⟩

/-- The scanning loop of `Deck::findBeforeMin`: `cs` holds the remaining
candidates, `best` the current minimum card, `bestIdx` its index and `curIdx`
the index of the head of `cs` (indices count from the first unsorted card);
the candidate is replaced exactly when it is strictly smaller under
`Card::operator<`. -/
def findMinFrom : List Card → Card → Nat → Nat → Nat
  | [], _, bestIdx, _ => bestIdx
  | c :: cs, best, bestIdx, curIdx =>
    if cardLt c best then findMinFrom cs c curIdx (curIdx + 1)
    else findMinFrom cs best bestIdx (curIdx + 1)

/-- Index, within the unsorted remainder, of the node whose predecessor
`Deck::findBeforeMin` returns: the earliest occurrence of the minimum. -/
def findMinIdx : List Card → Nat
  | [] => 0
  | c :: cs => findMinFrom cs c 0 1

/-- The `while` loop of `Deck::stableSelectionSort`: each iteration unlinks
the node at `findMinIdx` of the unsorted remainder and relinks it directly
after the insertion point; the loop runs once per card, `fuel` counts the
remaining iterations. -/
def sortLoop : Nat → List Card → List Card
  | 0, l => l
  | _ + 1, [] => []
  | fuel + 1, c :: cs =>
    (c :: cs).getD (findMinIdx (c :: cs)) c ::
      sortLoop fuel ((c :: cs).eraseIdx (findMinIdx (c :: cs)))

/-- `Deck::stableSelectionSort` on the card sequence. -/
def stableSelectionSort (l : List Card) : List Card := sortLoop l.length l

/-- `std::iter_swap` of the cards at positions `i` and `j`. -/
def swapIdx {α : Type} (l : List α) (i j : Nat) : List α :=
  match l[i]?, l[j]? with
  | some a, some b => (l.set i b).set j a
  | _, _ => l

/-- The loop of `Deck::shuffle`: at step `i` swap the card at position `i`
with the card at the drawn offset; `offs` lists the draws of the random
source, one per position. -/
def shuffleLoop {α : Type} : List α → List Nat → Nat → List α
  | l, [], _ => l
  | l, o :: offs, i => shuffleLoop (swapIdx l i o) offs (i + 1)

/-- `Deck::shuffle`, as a function of the values drawn from the source. -/
def shuffle {α : Type} (l : List α) (offs : List Nat) : List α := shuffleLoop l offs 0

/-- Cards after position 0 once the first swap of `Deck::shuffle` has run. -/
def swapRem {α : Type} (l : List α) (o : Nat) : List α := (swapIdx l 0 o).tail

/-- The draws an unbiased source can produce over one run of `Deck::shuffle`
on a deck of `n` cards: one value per position, the value for position `k`
drawn from the inclusive range `[k, n-1]`. -/
def ValidChoices (n : Nat) (offs : List Nat) : Prop :=
  offs.length = n ∧ ∀ k, k < n → k ≤ offs.getD k 0 ∧ offs.getD k 0 < n

/-- The suit order of the inner loop of `Deck::generateStandardDeck`. -/
def genSuits : List CardSuite := [.SPADE, .HEART, .CLUB, .DIAMOND]

/-- Rank with the given underlying value (the outer loop counter runs over
the underlying values from `ACE` = 62 down to `TWO` = 50). -/
def rankOfVal (n : Nat) : CardRank :=
  match n with
  | 50 => .TWO
  | 51 => .THREE
  | 52 => .FOUR
  | 53 => .FIVE
  | 54 => .SIX
  | 55 => .SEVEN
  | 56 => .EIGHT
  | 57 => .NINE
  | 58 => .TEN
  | 59 => .JACK
  | 60 => .QUEEN
  | 61 => .KING
  | _ => .ACE

/-- Cards in the order `Deck::generateStandardDeck` generates them: ranks
descending from `ACE` to `TWO`, for each rank the suits in `genSuits` order. -/
def standardGenOrder : List Card :=
  ((List.range 13).map (fun i => rankOfVal (62 - i))).flatMap
    (fun rank => genSuits.map (fun suite => Card.mk suite rank))

/-- `Deck::generateStandardDeck`: push every generated card at the front of
an initially empty deck. -/
def generateStandardDeck : Deck :=
  standardGenOrder.foldl pushFrontD ⟨[], 0⟩

end DeckSpec

namespace BinTree

theorem inorder_ne_nil {l r : BTree} {v : Int} : inorder (.node l v r) ≠ [] := by
  simp [inorder]

theorem numNodes_eq_length_inorder (t : BTree) : numNodes t = (inorder t).length := by
  induction t with
  | nil => rfl
  | node l v r ihl ihr => simp [numNodes, inorder, ihl, ihr]; omega

theorem mem_inorder_of_containsB {t : BTree} {v : Int}
    (h : containsB t v = true) : v ∈ inorder t := by
  induction t with
  | nil => simp [containsB] at h
  | node l x r ihl ihr =>
    simp only [containsB] at h
    by_cases h1 : v < x
    · simp only [if_pos h1] at h
      simp [inorder, ihl h]
    · by_cases h2 : x < v
      · simp only [if_neg h1, if_pos h2] at h
        simp [inorder, ihr h]
      · have : v = x := le_antisymm (not_lt.mp h2) (not_lt.mp h1)
        simp [inorder, this]

theorem containsB_of_mem_inorder {t : BTree} {v : Int} (hb : BST t)
    (h : v ∈ inorder t) : containsB t v = true := by
  induction hb with
  | nil => simp [inorder] at h
  | @node l r x hl hr _ _ ihl ihr =>
    simp only [inorder, List.mem_append, List.mem_cons] at h
    simp only [containsB]
    rcases h with h | h | h
    · have := hl v h
      simp [if_pos this, ihl h]
    · simp [h, lt_irrefl]
    · have := hr v h
      have hx : ¬ v < x := not_lt.mpr (le_of_lt this)
      simp [if_neg hx, if_pos this, ihr h]

theorem eraseT_no_op {t : BTree} {v : Int}
    (h : containsB t v = false) : eraseT t v = t := by
  induction t with
  | nil => rfl
  | node l x r ihl ihr =>
    simp only [containsB] at h
    by_cases h1 : v < x
    · simp only [if_pos h1] at h
      simp [eraseT, if_pos h1, ihl h]
    · by_cases h2 : x < v
      · simp only [if_neg h1, if_pos h2] at h
        simp [eraseT, if_neg h1, if_pos h2, ihr h]
      · simp [if_neg h1, if_neg h2] at h

example : containsB (.node (.node .nil 1 .nil) 2 (.node .nil 3 .nil)) 3 = true := by decide
example : eraseT (.node (.node .nil 1 .nil) 2 (.node .nil 3 .nil)) 2 =
    .node (.node .nil 1 .nil) 3 .nil := by decide
example : try_insert (.node .nil 2 .nil) 1 = some (.node (.node .nil 1 .nil) 2 .nil) := by decide

theorem try_insert_lt_nil {x v : Int} {r : BTree} (h1 : v < x) :
    try_insert (.node .nil x r) v = some (.node (.node .nil v .nil) x r) := by
  rw [try_insert.eq_def]
  simp only [if_pos h1]

theorem try_insert_lt_node {a : BTree} {b : Int} {c : BTree} {x v : Int} {r : BTree}
    (h1 : v < x) :
    try_insert (.node (.node a b c) x r) v =
      (try_insert (.node a b c) v).map (fun l' => .node l' x r) := by
  rw [try_insert.eq_def]
  simp only [if_pos h1]

theorem try_insert_gt_nil {x v : Int} {l : BTree} (h1 : ¬ v < x) (h2 : x < v) :
    try_insert (.node l x .nil) v = some (.node l x (.node .nil v .nil)) := by
  rw [try_insert.eq_def]
  simp only [if_neg h1, if_pos h2]

theorem try_insert_gt_node {d : BTree} {e : Int} {f : BTree} {x v : Int} {l : BTree}
    (h1 : ¬ v < x) (h2 : x < v) :
    try_insert (.node l x (.node d e f)) v =
      (try_insert (.node d e f) v).map (fun r' => .node l x r') := by
  rw [try_insert.eq_def]
  simp only [if_neg h1, if_pos h2]

theorem try_insert_found {x v : Int} {l r : BTree} (h1 : ¬ v < x) (h2 : ¬ x < v) :
    try_insert (.node l x r) v = none := by
  rw [try_insert.eq_def]
  simp only [if_neg h1, if_neg h2]

theorem eraseT_lt {x v : Int} {l r : BTree} (h1 : v < x) :
    eraseT (.node l x r) v = .node (eraseT l v) x r := by
  rw [eraseT.eq_def]
  simp only [if_pos h1]

theorem eraseT_gt {x v : Int} {l r : BTree} (h1 : ¬ v < x) (h2 : x < v) :
    eraseT (.node l x r) v = .node l x (eraseT r v) := by
  rw [eraseT.eq_def]
  simp only [if_neg h1, if_pos h2]

theorem eraseT_found_leaf {x v : Int} (h1 : ¬ v < x) (h2 : ¬ x < v) :
    eraseT (.node .nil x .nil) v = .nil := by
  rw [eraseT.eq_def]
  simp only [if_neg h1, if_neg h2]

theorem eraseT_found_left_nil {x v : Int} {d : BTree} {e : Int} {f : BTree}
    (h1 : ¬ v < x) (h2 : ¬ x < v) :
    eraseT (.node .nil x (.node d e f)) v = .node d e f := by
  rw [eraseT.eq_def]
  simp only [if_neg h1, if_neg h2]

theorem eraseT_found_right_nil {x v : Int} {a : BTree} {b : Int} {c : BTree}
    (h1 : ¬ v < x) (h2 : ¬ x < v) :
    eraseT (.node (.node a b c) x .nil) v = .node a b c := by
  rw [eraseT.eq_def]
  simp only [if_neg h1, if_neg h2]

theorem eraseT_found_double {x v : Int} {a : BTree} {b : Int} {c d : BTree} {e : Int}
    {f : BTree} (h1 : ¬ v < x) (h2 : ¬ x < v) :
    eraseT (.node (.node a b c) x (.node d e f)) v =
      .node (.node a b c) (min_val (.node d e f)) (erase_min (.node d e f)) := by
  rw [eraseT.eq_def]
  simp only [if_neg h1, if_neg h2]

theorem inorder_min : ∀ {t : BTree}, t ≠ .nil →
    inorder t = min_val t :: inorder (erase_min t)
  | .nil, h => absurd rfl h
  | .node .nil _ _, _ => by simp [inorder, min_val, erase_min]
  | .node (.node a b c) x r, _ => by
    have ih := inorder_min (t := .node a b c) (by simp)
    show inorder (.node a b c) ++ x :: inorder r =
      min_val (.node a b c) :: (inorder (erase_min (.node a b c)) ++ x :: inorder r)
    rw [ih]
    rfl

theorem bst_iff_pairwise : ∀ {t : BTree}, BST t ↔ (inorder t).Pairwise (· < ·) := by
  intro t
  induction t with
  | nil =>
    constructor
    · intro _; simp [inorder]
    · intro _; exact BST.nil
  | node l v r ihl ihr =>
    simp only [inorder, List.pairwise_append, List.pairwise_cons, List.mem_cons]
    constructor
    · intro hb
      cases hb with
      | node hl hr hbl hbr =>
        refine ⟨ihl.mp hbl, ⟨hr, ihr.mp hbr⟩, ?_⟩
        intro a ha b hb
        rcases hb with rfl | hb
        · exact hl a ha
        · exact lt_trans (hl a ha) (hr b hb)
    · rintro ⟨hpl, ⟨hvr, hpr⟩, hcross⟩
      exact BST.node (fun a ha => hcross a ha v (Or.inl rfl)) hvr (ihl.mpr hpl) (ihr.mpr hpr)

theorem not_mem_inorder_right {r : BTree} {v w : Int}
    (hr : ∀ x ∈ inorder r, w < x) (h : v < w) : v ∉ inorder r := by
  intro hm
  exact absurd (lt_trans h (hr v hm)) (lt_irrefl v)

theorem not_mem_inorder_left {l : BTree} {v w : Int}
    (hl : ∀ x ∈ inorder l, x < w) (h : w < v) : v ∉ inorder l := by
  intro hm
  exact absurd (lt_trans (hl v hm) h) (lt_irrefl v)

theorem inorder_eraseT {t : BTree} (v : Int) (hb : BST t) :
    inorder (eraseT t v) = (inorder t).erase v := by
  induction hb with
  | nil => simp [eraseT, inorder]
  | @node l r w hl hr hbl hbr ihl ihr =>
    by_cases h1 : v < w
    · rw [eraseT_lt h1]
      show inorder (eraseT l v) ++ w :: inorder r = (inorder l ++ w :: inorder r).erase v
      rw [ihl]
      by_cases hm : v ∈ inorder l
      · rw [List.erase_append_left _ hm]
      · rw [List.erase_of_not_mem hm, List.erase_of_not_mem]
        intro hmem
        rcases List.mem_append.mp hmem with h | h
        · exact hm h
        · rcases List.mem_cons.mp h with rfl | h
          · exact absurd h1 (lt_irrefl v)
          · exact not_mem_inorder_right hr h1 h
    · by_cases h2 : w < v
      · rw [eraseT_gt h1 h2]
        show inorder l ++ w :: inorder (eraseT r v) = (inorder l ++ w :: inorder r).erase v
        have hml : v ∉ inorder l := not_mem_inorder_left hl h2
        rw [ihr, List.erase_append_right _ hml, List.erase_cons_tail]
        simp only [beq_iff_eq]
        exact fun h => absurd h2 (h ▸ lt_irrefl v)
      · have hveq : v = w := le_antisymm (not_lt.mp h2) (not_lt.mp h1)
        subst hveq
        have hml : v ∉ inorder l := fun hm => absurd (hl v hm) (lt_irrefl v)
        rcases hcl : l with _ | ⟨a, b, c⟩ <;> rcases hcr : r with _ | ⟨d, e, f⟩ <;>
          subst hcl <;> subst hcr
        · rw [eraseT_found_leaf h1 h2]
          simp [inorder]
        · rw [eraseT_found_left_nil h1 h2]
          show inorder (.node d e f) = ([] ++ v :: inorder (.node d e f)).erase v
          simp
        · rw [eraseT_found_right_nil h1 h2]
          show inorder (.node a b c) = (inorder (.node a b c) ++ v :: []).erase v
          rw [List.erase_append_right _ hml]
          simp
        · rw [eraseT_found_double h1 h2]
          show inorder (.node a b c) ++
              min_val (.node d e f) :: inorder (erase_min (.node d e f)) =
            (inorder (.node a b c) ++ v :: inorder (.node d e f)).erase v
          rw [List.erase_append_right _ hml, List.erase_cons_head,
            ← inorder_min (by simp)]

theorem bst_eraseT {t : BTree} (v : Int) (hb : BST t) : BST (eraseT t v) := by
  rw [bst_iff_pairwise, inorder_eraseT v hb]
  exact (bst_iff_pairwise.mp hb).sublist (List.erase_sublist v (inorder t))

theorem mem_inorder_node {t1 t2 : BTree} {x y : Int} :
    y ∈ inorder (.node t1 x t2) ↔ y ∈ inorder t1 ∨ y = x ∨ y ∈ inorder t2 := by
  show y ∈ inorder t1 ++ x :: inorder t2 ↔ _
  simp [List.mem_append, List.mem_cons]

theorem mem_inorder_try_insert : ∀ {t t' : BTree} {v y : Int},
    try_insert t v = some t' → y ∈ inorder t' → y = v ∨ y ∈ inorder t := by
  intro t
  induction t with
  | nil => intro t' v y h; simp [try_insert] at h
  | node l x r ihl ihr =>
    intro t' v y h hy
    by_cases h1 : v < x
    · rcases hcl : l with _ | ⟨a, b, c⟩ <;> subst hcl
      · rw [try_insert_lt_nil h1, Option.some.injEq] at h
        subst h
        rw [mem_inorder_node] at hy
        rw [mem_inorder_node]
        rcases hy with hy | hy
        · rw [mem_inorder_node] at hy
          simp only [inorder, List.not_mem_nil, false_or, or_false] at hy
          exact Or.inl hy
        · exact Or.inr (Or.inr hy)
      · rw [try_insert_lt_node h1, Option.map_eq_some'] at h
        obtain ⟨l', hl', rfl⟩ := h
        rw [mem_inorder_node] at hy
        rw [mem_inorder_node]
        rcases hy with hy | hy
        · rcases ihl hl' hy with h | h
          · exact Or.inl h
          · exact Or.inr (Or.inl h)
        · exact Or.inr (Or.inr hy)
    · by_cases h2 : x < v
      · rcases hcr : r with _ | ⟨d, e, f⟩ <;> subst hcr
        · rw [try_insert_gt_nil h1 h2, Option.some.injEq] at h
          subst h
          rw [mem_inorder_node] at hy
          rw [mem_inorder_node]
          rcases hy with hy | hy
          · exact Or.inr (Or.inl hy)
          · rcases hy with hy | hy
            · exact Or.inr (Or.inr (Or.inl hy))
            · rw [mem_inorder_node] at hy
              simp only [inorder, List.not_mem_nil, false_or, or_false] at hy
              exact Or.inl hy
        · rw [try_insert_gt_node h1 h2, Option.map_eq_some'] at h
          obtain ⟨r', hr', rfl⟩ := h
          rw [mem_inorder_node] at hy
          rw [mem_inorder_node]
          rcases hy with hy | hy
          · exact Or.inr (Or.inl hy)
          · rcases hy with hy | hy
            · exact Or.inr (Or.inr (Or.inl hy))
            · rcases ihr hr' hy with h | h
              · exact Or.inl h
              · exact Or.inr (Or.inr (Or.inr h))
      · rw [try_insert_found h1 h2] at h
        exact absurd h (by simp)

theorem bst_try_insert : ∀ {t t' : BTree} {v : Int},
    BST t → try_insert t v = some t' → BST t' := by
  intro t
  induction t with
  | nil => intro t' v _ h; simp [try_insert] at h
  | node l x r ihl ihr =>
    intro t' v hb h
    cases hb with
    | node hl hr hbl hbr =>
      by_cases h1 : v < x
      · rcases hcl : l with _ | ⟨a, b, c⟩ <;> subst hcl
        · rw [try_insert_lt_nil h1, Option.some.injEq] at h
          subst h
          refine BST.node ?_ hr ?_ hbr
          · intro y hy
            simp only [inorder, List.nil_append, List.mem_cons, List.not_mem_nil,
              or_false] at hy
            exact hy ▸ h1
          · exact BST.node (by simp [inorder]) (by simp [inorder]) BST.nil BST.nil
        · rw [try_insert_lt_node h1, Option.map_eq_some'] at h
          obtain ⟨l', hl', rfl⟩ := h
          refine BST.node ?_ hr (ihl hbl hl') hbr
          intro y hy
          rcases mem_inorder_try_insert hl' hy with rfl | hy
          · exact h1
          · exact hl y hy
      · by_cases h2 : x < v
        · rcases hcr : r with _ | ⟨d, e, f⟩ <;> subst hcr
          · rw [try_insert_gt_nil h1 h2, Option.some.injEq] at h
            subst h
            refine BST.node hl ?_ hbl ?_
            · intro y hy
              simp only [inorder, List.nil_append, List.mem_cons, List.not_mem_nil,
                or_false] at hy
              exact hy ▸ h2
            · exact BST.node (by simp [inorder]) (by simp [inorder]) BST.nil BST.nil
          · rw [try_insert_gt_node h1 h2, Option.map_eq_some'] at h
            obtain ⟨r', hr', rfl⟩ := h
            refine BST.node hl ?_ hbl (ihr hbr hr')
            intro y hy
            rcases mem_inorder_try_insert hr' hy with rfl | hy
            · exact h2
            · exact hr y hy
        · rw [try_insert_found h1 h2] at h
          exact absurd h (by simp)

theorem try_insert_eq_none : ∀ {t : BTree} {v : Int},
    containsB t v = true → try_insert t v = none := by
  intro t
  induction t with
  | nil => intro v h; simp [containsB] at h
  | node l x r ihl ihr =>
    intro v h
    simp only [containsB] at h
    by_cases h1 : v < x
    · rw [if_pos h1] at h
      rcases hcl : l with _ | ⟨a, b, c⟩ <;> subst hcl
      · simp [containsB] at h
      · rw [try_insert_lt_node h1, ihl h]
        rfl
    · by_cases h2 : x < v
      · rw [if_neg h1, if_pos h2] at h
        rcases hcr : r with _ | ⟨d, e, f⟩ <;> subst hcr
        · simp [containsB] at h
        · rw [try_insert_gt_node h1 h2, ihr h]
          rfl
      · exact try_insert_found h1 h2

theorem numNodes_try_insert : ∀ {t t' : BTree} {v : Int},
    try_insert t v = some t' → numNodes t' = numNodes t + 1 := by
  intro t
  induction t with
  | nil => intro t' v h; simp [try_insert] at h
  | node l x r ihl ihr =>
    intro t' v h
    by_cases h1 : v < x
    · rcases hcl : l with _ | ⟨a, b, c⟩ <;> subst hcl
      · rw [try_insert_lt_nil h1, Option.some.injEq] at h
        subst h
        simp only [numNodes]
        omega
      · rw [try_insert_lt_node h1, Option.map_eq_some'] at h
        obtain ⟨l', hl', rfl⟩ := h
        simp only [numNodes, ihl hl']
        omega
    · by_cases h2 : x < v
      · rcases hcr : r with _ | ⟨d, e, f⟩ <;> subst hcr
        · rw [try_insert_gt_nil h1 h2, Option.some.injEq] at h
          subst h
          simp only [numNodes]
        · rw [try_insert_gt_node h1 h2, Option.map_eq_some'] at h
          obtain ⟨r', hr', rfl⟩ := h
          simp only [numNodes, ihr hr']
          omega
      · rw [try_insert_found h1 h2] at h
        exact absurd h (by simp)

theorem bst_applyOp (s : TreeS) (o : Op) (hb : BST s.root) : BST (applyOp s o).root := by
  cases o with
  | ins v =>
    show BST (insertS s v).1.root
    rw [insertS]
    by_cases hz : s.tree_size = 0
    · rw [if_pos hz]
      exact BST.node (by simp [inorder]) (by simp [inorder]) BST.nil BST.nil
    · rw [if_neg hz]
      rcases hti : try_insert s.root v with _ | t'
      · exact hb
      · exact bst_try_insert hb hti
  | del v =>
    show BST (eraseS s v).root
    rw [eraseS]
    by_cases hc : containsB s.root v
    · rw [if_pos hc]
      exact bst_eraseT v hb
    · rw [if_neg hc]
      exact hb

theorem wf_applyOp (s : TreeS) (o : Op) (hb : BST s.root) (hw : WfS s) :
    WfS (applyOp s o) := by
  cases o with
  | ins v =>
    show WfS (insertS s v).1
    rw [insertS]
    by_cases hz : s.tree_size = 0
    · rw [if_pos hz]
      show s.tree_size + 1 = numNodes (.node .nil v .nil)
      rw [hz]
      rfl
    · rw [if_neg hz]
      rcases hti : try_insert s.root v with _ | t'
      · exact hw
      · show s.tree_size + 1 = numNodes t'
        rw [numNodes_try_insert hti]
        rw [WfS] at hw
        omega
  | del v =>
    show WfS (eraseS s v)
    rw [eraseS]
    by_cases hc : containsB s.root v
    · rw [if_pos hc]
      show s.tree_size - 1 = numNodes (eraseT s.root v)
      have hmem : v ∈ inorder s.root := mem_inorder_of_containsB hc
      have hlen : (inorder (eraseT s.root v)).length = (inorder s.root).length - 1 := by
        rw [inorder_eraseT v hb]
        exact List.length_erase_of_mem hmem
      rw [WfS] at hw
      rw [numNodes_eq_length_inorder, hlen, ← numNodes_eq_length_inorder, hw]
    · rw [if_neg hc]
      exact hw

theorem runOps_inv (ops : List Op) : ∀ s : TreeS, BST s.root → WfS s →
    BST (ops.foldl applyOp s).root ∧ WfS (ops.foldl applyOp s) := by
  induction ops with
  | nil => intro s hb hw; exact ⟨hb, hw⟩
  | cons o ops ih =>
    intro s hb hw
    simp only [List.foldl_cons]
    exact ih _ (bst_applyOp s o hb) (wf_applyOp s o hb hw)

/-- C1: after `erase(v)` the value is gone (`contains(v)` is false); when `v`
was present `size()` drops by exactly one, and when it was absent the call is
a no-op and the state, size included, is unchanged. -/
theorem erase_correct (s : TreeS) (v : Int) (hb : BST s.root) (hw : WfS s) :
    containsB (eraseS s v).root v = false
    ∧ (containsB s.root v = true → (eraseS s v).tree_size + 1 = s.tree_size)
    ∧ (containsB s.root v = false → eraseS s v = s) := by
  refine ⟨?_, ?_, ?_⟩
  · by_cases hc : containsB s.root v
    · simp only [eraseS, if_pos hc]
      by_contra hne
      have htrue : containsB (eraseT s.root v) v = true := by
        revert hne; cases containsB (eraseT s.root v) v <;> simp
      have hmem : v ∈ inorder (eraseT s.root v) := mem_inorder_of_containsB htrue
      rw [inorder_eraseT v hb] at hmem
      have hnd : (inorder s.root).Nodup := (bst_iff_pairwise.mp hb).imp ne_of_lt
      exact absurd ((List.Nodup.mem_erase_iff hnd).mp hmem).1 (by simp)
    · simp only [eraseS, if_neg hc]
      revert hc; cases containsB s.root v <;> simp
  · intro hc
    simp only [eraseS, if_pos hc]
    have hmem : v ∈ inorder s.root := mem_inorder_of_containsB hc
    have hpos : 0 < (inorder s.root).length := List.length_pos.mpr (by
      intro h; rw [h] at hmem; simp at hmem)
    rw [WfS, numNodes_eq_length_inorder] at hw
    omega
  · intro hc
    simp [eraseS, hc]

/-- Witness for C1 at the one-node tree holding `1`, erasing `1`. -/
theorem erase_correct_witness :
    containsB (eraseS ⟨.node .nil 1 .nil, 1⟩ 1).root 1 = false
    ∧ (containsB (TreeS.mk (.node .nil 1 .nil) 1).root 1 = true →
        (eraseS ⟨.node .nil 1 .nil, 1⟩ 1).tree_size + 1
          = (TreeS.mk (.node .nil 1 .nil) 1).tree_size)
    ∧ (containsB (TreeS.mk (.node .nil 1 .nil) 1).root 1 = false →
        eraseS ⟨.node .nil 1 .nil, 1⟩ 1 = ⟨.node .nil 1 .nil, 1⟩) :=
  erase_correct ⟨.node .nil 1 .nil, 1⟩ 1
    (BST.node (by simp [inorder]) (by simp [inorder]) BST.nil BST.nil) rfl

/-- C2: every sequence of inserts and erases from the empty tree keeps the
binary-search-tree ordering invariant, never holds duplicates, and its
in-order traversal is strictly ascending. -/
theorem bst_invariant (ops : List Op) :
    BST (runOps ops).root
    ∧ (inorder (runOps ops).root).Pairwise (· < ·)
    ∧ (inorder (runOps ops).root).Nodup := by
  have h := runOps_inv ops ⟨.nil, 0⟩ BST.nil rfl
  exact ⟨h.1, bst_iff_pairwise.mp h.1, (bst_iff_pairwise.mp h.1).imp ne_of_lt⟩

/-- C3: erasing a value whose node has two children replaces that node, at
its exact structural position (the root itself when the path is empty), by
the in-order successor: the leftmost node of the right subtree, detached by
the leaf/single-child procedure (`erase_min`), carrying the erased node's
left subtree and its right subtree with the successor removed. -/
theorem erase_double_node (t : BTree) (v x : Int) (p : List Dir) (l r : BTree)
    (hp : findPath t v = some p) (hs : subtreeAt t p = some (.node l x r))
    (hl : l ≠ .nil) (hr : r ≠ .nil) :
    eraseT t v = replaceAt t p (.node l (min_val r) (erase_min r))
    ∧ x = v
    ∧ inorder r = min_val r :: inorder (erase_min r) := by
  induction t generalizing p with
  | nil => simp [findPath] at hp
  | node L X R ihl ihr =>
    by_cases h1 : v < X
    · simp only [findPath, if_pos h1, Option.map_eq_some'] at hp
      obtain ⟨p', hp', rfl⟩ := hp
      simp only [subtreeAt] at hs
      obtain ⟨e1, e2, e3⟩ := ihl p' hp' hs
      exact ⟨by rw [eraseT_lt h1, replaceAt, e1], e2, e3⟩
    · by_cases h2 : X < v
      · simp only [findPath, if_neg h1, if_pos h2, Option.map_eq_some'] at hp
        obtain ⟨p', hp', rfl⟩ := hp
        simp only [subtreeAt] at hs
        obtain ⟨e1, e2, e3⟩ := ihr p' hp' hs
        exact ⟨by rw [eraseT_gt h1 h2, replaceAt, e1], e2, e3⟩
      · simp only [findPath, if_neg h1, if_neg h2, Option.some.injEq] at hp
        subst hp
        simp only [subtreeAt, Option.some.injEq, BTree.node.injEq] at hs
        obtain ⟨e1, e2, e3⟩ := hs
        rw [← e1, ← e2, ← e3]
        rw [← e1] at hl
        rw [← e3] at hr
        refine ⟨?_, le_antisymm (not_lt.mp h1) (not_lt.mp h2), inorder_min hr⟩
        rcases hcl : L with _ | ⟨a, b, c⟩ <;> subst hcl
        · exact absurd rfl hl
        · rcases hcr : R with _ | ⟨d, e, f⟩ <;> subst hcr
          · exact absurd rfl hr
          · rw [eraseT_found_double h1 h2]
            rfl

/-- Witness for C3: erasing the root `2` of the tree `(1) 2 (3)`. -/
theorem erase_double_node_witness :
    eraseT (.node (.node .nil 1 .nil) 2 (.node .nil 3 .nil)) 2 =
      replaceAt (.node (.node .nil 1 .nil) 2 (.node .nil 3 .nil)) []
        (.node (.node .nil 1 .nil) (min_val (.node .nil 3 .nil))
          (erase_min (.node .nil 3 .nil)))
    ∧ (2 : Int) = 2
    ∧ inorder (.node .nil 3 .nil) =
        min_val (.node .nil 3 .nil) :: inorder (erase_min (.node .nil 3 .nil)) :=
  erase_double_node (.node (.node .nil 1 .nil) 2 (.node .nil 3 .nil)) 2 2 []
    (.node .nil 1 .nil) (.node .nil 3 .nil) (by decide) (by decide)
    (by decide) (by decide)

/-- C4: inserting a value already present returns `false` and leaves the
state, root structure and `size()` alike, completely unchanged. -/
theorem insert_duplicate (s : TreeS) (v : Int) (hw : WfS s)
    (hc : containsB s.root v = true) : insertS s v = (s, false) := by
  have hne : s.root ≠ .nil := by
    intro h; rw [h] at hc; simp [containsB] at hc
  have hsz : ¬ s.tree_size = 0 := by
    rw [WfS] at hw
    rcases hcl : s.root with _ | ⟨a, b, c⟩
    · exact absurd hcl hne
    · rw [hcl] at hw; simp [numNodes] at hw; omega
  rw [insertS, if_neg hsz, try_insert_eq_none hc]

/-- Witness for C4 at the one-node tree holding `5`, inserting `5` again. -/
theorem insert_duplicate_witness :
    insertS ⟨.node .nil 5 .nil, 1⟩ 5 = (⟨.node .nil 5 .nil, 1⟩, false) :=
  insert_duplicate ⟨.node .nil 5 .nil, 1⟩ 5 rfl rfl

end BinTree

namespace DeckSpec

theorem cardLt_iff (a b : Card) : cardLt a b = true ↔ rankVal a.rank < rankVal b.rank := by
  simp [cardLt]

theorem cardLt_false_iff (a b : Card) :
    cardLt a b = false ↔ ¬ rankVal a.rank < rankVal b.rank := by
  simp [cardLt]

theorem cardLt_irrefl (a : Card) : cardLt a a = false := by
  simp [cardLt]

theorem findMinFrom_go (l : List Card) :
    ∀ cnt curIdx bestIdx, curIdx + cnt = l.length → bestIdx < curIdx →
    (∀ k, k < curIdx → cardLt (l.getD k default) (l.getD bestIdx default) = false) →
    (∀ k, k < bestIdx → cardLt (l.getD bestIdx default) (l.getD k default) = true) →
    findMinFrom (l.drop curIdx) (l.getD bestIdx default) bestIdx curIdx < l.length
    ∧ (∀ k, k < l.length →
        cardLt (l.getD k default)
          (l.getD (findMinFrom (l.drop curIdx) (l.getD bestIdx default) bestIdx curIdx)
            default) = false)
    ∧ (∀ k, k < findMinFrom (l.drop curIdx) (l.getD bestIdx default) bestIdx curIdx →
        cardLt
          (l.getD (findMinFrom (l.drop curIdx) (l.getD bestIdx default) bestIdx curIdx)
            default)
          (l.getD k default) = true) := by
  intro cnt
  induction cnt with
  | zero =>
    intro curIdx bestIdx hlen hbc hmin hearly
    have hcur : curIdx = l.length := by omega
    subst hcur
    rw [List.drop_length]
    simp only [findMinFrom]
    exact ⟨by omega, fun k hk => hmin k (by omega), hearly⟩
  | succ cnt ih =>
    intro curIdx bestIdx hlen hbc hmin hearly
    have hcur : curIdx < l.length := by omega
    rw [List.drop_eq_getElem_cons hcur]
    simp only [findMinFrom]
    have hgd : l.getD curIdx default = l[curIdx] := List.getD_eq_getElem l default hcur
    rw [← hgd]
    by_cases hlt : cardLt (l.getD curIdx default) (l.getD bestIdx default) = true
    · rw [if_pos hlt]
      rw [cardLt_iff] at hlt
      refine ih (curIdx + 1) curIdx (by omega) (by omega) ?_ ?_
      · intro k hk
        rw [cardLt_false_iff]
        by_cases hkc : k < curIdx
        · have h1 := hmin k hkc
          rw [cardLt_false_iff] at h1
          omega
        · have hkeq : k = curIdx := by omega
          subst hkeq
          omega
      · intro k hk
        have h1 := hmin k hk
        rw [cardLt_false_iff] at h1
        rw [cardLt_iff]
        omega
    · rw [if_neg hlt]
      have hlt' : ¬ rankVal (l.getD curIdx default).rank < rankVal (l.getD bestIdx default).rank := by
        intro hcontra
        exact hlt ((cardLt_iff _ _).mpr hcontra)
      refine ih (curIdx + 1) bestIdx (by omega) (by omega) ?_ hearly
      intro k hk
      by_cases hkc : k < curIdx
      · exact hmin k hkc
      · have hkeq : k = curIdx := by omega
        subst hkeq
        rw [cardLt_false_iff]
        exact hlt'

theorem findMinIdx_spec (l : List Card) (hne : l ≠ []) :
    findMinIdx l < l.length
    ∧ (∀ k, k < l.length →
        cardLt (l.getD k default) (l.getD (findMinIdx l) default) = false)
    ∧ (∀ k, k < findMinIdx l →
        cardLt (l.getD (findMinIdx l) default) (l.getD k default) = true) := by
  obtain ⟨c, cs, rfl⟩ := List.exists_cons_of_ne_nil hne
  show findMinFrom ((c :: cs).drop 1) ((c :: cs).getD 0 default) 0 1 < (c :: cs).length ∧ _ ∧ _
  refine findMinFrom_go (c :: cs) cs.length 1 0 (by simp [Nat.add_comm]) (by omega) ?_ ?_
  · intro k hk
    have hkeq : k = 0 := by omega
    subst hkeq
    exact cardLt_irrefl _
  · intro k hk
    omega

theorem getElem_cons_eraseIdx_perm (l : List Card) (i : Nat) (hi : i < l.length) :
    (l[i] :: l.eraseIdx i).Perm l := by
  conv_rhs => rw [← List.take_append_drop i l]
  rw [List.eraseIdx_eq_take_drop_succ, List.drop_eq_getElem_cons hi]
  exact List.perm_middle.symm

theorem sortLoop_perm : ∀ (fuel : Nat) (l : List Card), (sortLoop fuel l).Perm l := by
  intro fuel
  induction fuel with
  | zero => intro l; exact List.Perm.refl _
  | succ fuel ih =>
    intro l
    rcases l with _ | ⟨c, cs⟩
    · exact List.Perm.refl _
    · have hi : findMinIdx (c :: cs) < (c :: cs).length :=
        (findMinIdx_spec (c :: cs) (by simp)).1
      rw [show sortLoop (fuel + 1) (c :: cs)
          = (c :: cs).getD (findMinIdx (c :: cs)) c
            :: sortLoop fuel ((c :: cs).eraseIdx (findMinIdx (c :: cs))) from rfl]
      rw [List.getD_eq_getElem _ _ hi]
      exact ((ih _).cons _).trans (getElem_cons_eraseIdx_perm _ _ hi)

theorem sortLoop_sorted : ∀ (fuel : Nat) (l : List Card), l.length ≤ fuel →
    (sortLoop fuel l).Pairwise (fun a b => rankVal a.rank ≤ rankVal b.rank) := by
  intro fuel
  induction fuel with
  | zero =>
    intro l hl
    obtain rfl := List.length_eq_zero.mp (Nat.le_zero.mp hl)
    exact List.Pairwise.nil
  | succ fuel ih =>
    intro l hl
    rcases l with _ | ⟨c, cs⟩
    · exact List.Pairwise.nil
    · obtain ⟨hi, hminall, _⟩ := findMinIdx_spec (c :: cs) (by simp)
      rw [show sortLoop (fuel + 1) (c :: cs)
          = (c :: cs).getD (findMinIdx (c :: cs)) c
            :: sortLoop fuel ((c :: cs).eraseIdx (findMinIdx (c :: cs))) from rfl]
      refine List.Pairwise.cons ?_ (ih _ ?_)
      · intro y hy
        have hmem : y ∈ (c :: cs).eraseIdx (findMinIdx (c :: cs)) :=
          (sortLoop_perm fuel _).mem_iff.mp hy
        obtain ⟨k, hk, rfl⟩ := List.mem_iff_getElem.mp (List.mem_of_mem_eraseIdx hmem)
        have h1 := hminall k hk
        rw [cardLt_false_iff, List.getD_eq_getElem _ _ hk, List.getD_eq_getElem _ _ hi] at h1
        rw [List.getD_eq_getElem _ _ hi]
        omega
      · rw [List.length_eraseIdx_of_lt hi]
        simp only [List.length_cons] at hl ⊢
        omega

/-- C5: the deck produced by `stableSelectionSort` is non-decreasing by rank
(card ordering compares ranks only). -/
theorem stableSelectionSort_sorted (l : List Card) :
    (stableSelectionSort l).Pairwise (fun a b => rankVal a.rank ≤ rankVal b.rank) :=
  sortLoop_sorted l.length l (le_refl _)

theorem rankVal_inj : ∀ a b : CardRank, rankVal a = rankVal b → a = b := by decide

theorem filter_take_eq_nil (l : List Card) (p : Card → Bool) (i : Nat)
    (hpre : ∀ k, (hk : k < l.length) → k < i → p (l[k]) = false) :
    (l.take i).filter p = [] := by
  apply List.filter_eq_nil_iff.mpr
  intro a ha
  obtain ⟨k, hk, hak⟩ := List.mem_iff_getElem.mp ha
  have hklt : k < i := by
    simp only [List.length_take] at hk
    omega
  have hkl : k < l.length := by
    simp only [List.length_take] at hk
    omega
  have hget : (l.take i)[k] = l[k] := List.getElem_take ..
  rw [hget] at hak
  rw [← hak]
  simp [hpre k hkl hklt]

theorem filter_eraseIdx_of_not (l : List Card) (p : Card → Bool) (i : Nat)
    (hi : i < l.length) (hp : p (l[i]) = false) :
    l.filter p = (l.eraseIdx i).filter p := by
  conv_lhs => rw [← List.take_append_drop i l]
  rw [List.drop_eq_getElem_cons hi, List.filter_append, List.filter_cons, if_neg (by simp [hp]),
    List.eraseIdx_eq_take_drop_succ, List.filter_append]

theorem filter_eraseIdx_of_pos (l : List Card) (p : Card → Bool) (i : Nat)
    (hi : i < l.length) (hp : p (l[i]) = true)
    (hpre : ∀ k, (hk : k < l.length) → k < i → p (l[k]) = false) :
    l.filter p = l[i] :: (l.eraseIdx i).filter p := by
  have htake := filter_take_eq_nil l p i hpre
  conv_lhs => rw [← List.take_append_drop i l]
  rw [List.drop_eq_getElem_cons hi, List.filter_append, List.filter_cons, if_pos hp,
    htake, List.eraseIdx_eq_take_drop_succ, List.filter_append, htake]
  rfl

theorem filter_sortLoop : ∀ (fuel : Nat) (l : List Card) (r : CardRank), l.length ≤ fuel →
    (sortLoop fuel l).filter (fun c => decide (c.rank = r))
      = l.filter (fun c => decide (c.rank = r)) := by
  intro fuel
  induction fuel with
  | zero =>
    intro l r hl
    obtain rfl := List.length_eq_zero.mp (Nat.le_zero.mp hl)
    rfl
  | succ fuel ih =>
    intro l r hl
    rcases l with _ | ⟨c, cs⟩
    · rfl
    · obtain ⟨hi, _, hearliest⟩ := findMinIdx_spec (c :: cs) (by simp)
      rw [show sortLoop (fuel + 1) (c :: cs)
          = (c :: cs).getD (findMinIdx (c :: cs)) c
            :: sortLoop fuel ((c :: cs).eraseIdx (findMinIdx (c :: cs))) from rfl]
      rw [List.getD_eq_getElem _ _ hi, List.filter_cons]
      have hlen2 : ((c :: cs).eraseIdx (findMinIdx (c :: cs))).length ≤ fuel := by
        rw [List.length_eraseIdx_of_lt hi]
        simp only [List.length_cons] at hl ⊢
        omega
      by_cases hpm : (decide (((c :: cs)[findMinIdx (c :: cs)]).rank = r)) = true
      · rw [if_pos hpm, ih _ r hlen2]
        refine (filter_eraseIdx_of_pos (c :: cs) _ (findMinIdx (c :: cs)) hi hpm ?_).symm
        intro k hk hklt
        have h2 := hearliest k hklt
        rw [cardLt_iff, List.getD_eq_getElem _ _ hi, List.getD_eq_getElem _ _ hk] at h2
        apply decide_eq_false
        intro heq
        have hm : ((c :: cs)[findMinIdx (c :: cs)]).rank = r := of_decide_eq_true hpm
        rw [heq, ← hm] at h2
        omega
      · have hpm' : (decide (((c :: cs)[findMinIdx (c :: cs)]).rank = r)) = false := by
          revert hpm
          cases decide (((c :: cs)[findMinIdx (c :: cs)]).rank = r) <;> simp
        rw [if_neg (by simp [hpm']), ih _ r hlen2]
        exact (filter_eraseIdx_of_not (c :: cs) _ (findMinIdx (c :: cs)) hi hpm').symm

/-- C6: `stableSelectionSort` is stable: for every rank, the cards of that
rank appear in the output in exactly their input order; each selection step
picks the earliest occurrence of the minimum of the unsorted remainder
(every card of the remainder is at least the selected one, and every card
before the selected index is strictly greater). -/
theorem stableSelectionSort_stable (l : List Card) (r : CardRank) :
    (stableSelectionSort l).filter (fun c => decide (c.rank = r))
      = l.filter (fun c => decide (c.rank = r))
    ∧ (l ≠ [] →
        findMinIdx l < l.length
        ∧ (∀ k, k < l.length →
            cardLt (l.getD k default) (l.getD (findMinIdx l) default) = false)
        ∧ (∀ k, k < findMinIdx l →
            cardLt (l.getD (findMinIdx l) default) (l.getD k default) = true)) :=
  ⟨filter_sortLoop l.length l r (le_refl _), findMinIdx_spec l⟩

/-- Witness for C6 on the deck `[(H,3), (S,2), (C,2)]` filtered at rank 2:
the two rank-2 cards keep their order and the selected minimum is the
earliest rank-2 card. -/
theorem stableSelectionSort_stable_witness :
    (stableSelectionSort [⟨.HEART, .THREE⟩, ⟨.SPADE, .TWO⟩, ⟨.CLUB, .TWO⟩]).filter
        (fun c => decide (c.rank = .TWO))
      = ([⟨.HEART, .THREE⟩, ⟨.SPADE, .TWO⟩, ⟨.CLUB, .TWO⟩] : List Card).filter
        (fun c => decide (c.rank = .TWO))
    ∧ (findMinIdx [⟨.HEART, .THREE⟩, ⟨.SPADE, .TWO⟩, ⟨.CLUB, .TWO⟩]
          < ([⟨.HEART, .THREE⟩, ⟨.SPADE, .TWO⟩, ⟨.CLUB, .TWO⟩] : List Card).length
        ∧ (∀ k, k < ([⟨.HEART, .THREE⟩, ⟨.SPADE, .TWO⟩, ⟨.CLUB, .TWO⟩] : List Card).length →
            cardLt (([⟨.HEART, .THREE⟩, ⟨.SPADE, .TWO⟩, ⟨.CLUB, .TWO⟩] : List Card).getD k default)
              (([⟨.HEART, .THREE⟩, ⟨.SPADE, .TWO⟩, ⟨.CLUB, .TWO⟩] : List Card).getD
                (findMinIdx [⟨.HEART, .THREE⟩, ⟨.SPADE, .TWO⟩, ⟨.CLUB, .TWO⟩]) default) = false)
        ∧ (∀ k, k < findMinIdx [⟨.HEART, .THREE⟩, ⟨.SPADE, .TWO⟩, ⟨.CLUB, .TWO⟩] →
            cardLt
              (([⟨.HEART, .THREE⟩, ⟨.SPADE, .TWO⟩, ⟨.CLUB, .TWO⟩] : List Card).getD
                (findMinIdx [⟨.HEART, .THREE⟩, ⟨.SPADE, .TWO⟩, ⟨.CLUB, .TWO⟩]) default)
              (([⟨.HEART, .THREE⟩, ⟨.SPADE, .TWO⟩, ⟨.CLUB, .TWO⟩] : List Card).getD k default)
                = true)) :=
  ⟨(stableSelectionSort_stable [⟨.HEART, .THREE⟩, ⟨.SPADE, .TWO⟩, ⟨.CLUB, .TWO⟩] .TWO).1,
    (stableSelectionSort_stable [⟨.HEART, .THREE⟩, ⟨.SPADE, .TWO⟩, ⟨.CLUB, .TWO⟩] .TWO).2
      (by decide)⟩

/-- C9: `stableSelectionSort` permutes the deck: same multiset of cards, same
length, no card created or destroyed. -/
theorem stableSelectionSort_perm (l : List Card) :
    (stableSelectionSort l).Perm l
    ∧ (stableSelectionSort l).length = l.length
    ∧ ((stableSelectionSort l : List Card) : Multiset Card) = (l : Multiset Card) := by
  have h := sortLoop_perm l.length l
  exact ⟨h, h.length_eq, Multiset.coe_eq_coe.mpr h⟩

/-- C10: `popFront` on a non-empty deck removes exactly the first card and
drops `size()` by one; on an empty deck the assertion `node->next != nullptr`
inside `extractAfter` fires (`none`), as it does for `eraseAfter` at any
position whose node has no successor; positions with a successor never reach
the error branch. -/
theorem popFront_eraseAfter_safe (d : Deck) (hw : WfD d) :
    (d.cards ≠ [] →
      popFrontD d = some ⟨d.cards.tail, d.deckSize - 1⟩
      ∧ (d.deckSize - 1) + 1 = d.deckSize)
    ∧ (d.cards = [] → popFrontD d = none)
    ∧ (∀ pos, pos < d.cards.length →
        eraseAfterD d pos = some ⟨d.cards.eraseIdx pos, d.deckSize - 1⟩)
    ∧ (∀ pos, d.cards.length ≤ pos → eraseAfterD d pos = none) := by
  have herase : ∀ pos, pos < d.cards.length →
      eraseAfterD d pos = some ⟨d.cards.eraseIdx pos, d.deckSize - 1⟩ := by
    intro pos hpos
    rw [eraseAfterD, extractAfter, dif_pos hpos]
    rfl
  have hnone : ∀ pos, d.cards.length ≤ pos → eraseAfterD d pos = none := by
    intro pos hpos
    rw [eraseAfterD, extractAfter, dif_neg (not_lt.mpr hpos)]
    rfl
  refine ⟨?_, ?_, herase, hnone⟩
  · intro hne
    have hpos : 0 < d.cards.length := List.length_pos.mpr hne
    constructor
    · rw [popFrontD, herase 0 hpos]
      rcases hc : d.cards with _ | ⟨c, cs⟩
      · exact absurd hc hne
      · rfl
    · rw [WfD] at hw
      omega
  · intro hnil
    rw [popFrontD]
    exact hnone 0 (by rw [hnil]; exact le_refl _)

/-- Witness for C10 on the one-card deck `[(S,A)]`. -/
theorem popFront_eraseAfter_safe_witness :
    popFrontD ⟨[⟨.SPADE, .ACE⟩], 1⟩ = some ⟨[], 0⟩
    ∧ (0 + 1 = 1)
    ∧ eraseAfterD ⟨[⟨.SPADE, .ACE⟩], 1⟩ 1 = none :=
  ⟨((popFront_eraseAfter_safe ⟨[⟨.SPADE, .ACE⟩], 1⟩ rfl).1 (by decide)).1,
    ((popFront_eraseAfter_safe ⟨[⟨.SPADE, .ACE⟩], 1⟩ rfl).1 (by decide)).2,
    (popFront_eraseAfter_safe ⟨[⟨.SPADE, .ACE⟩], 1⟩ rfl).2.2.2 1 (by decide)⟩

/-- C8: the standard-deck factory yields exactly the 52 distinct
suit-by-rank cards, generated rank-descending from ace to two with the four
suits in a fixed order for each rank (the chain holds them in reverse of the
generation order because each card is pushed at the front). -/
theorem generateStandardDeck_spec :
    generateStandardDeck.cards.length = 52
    ∧ generateStandardDeck.deckSize = 52
    ∧ generateStandardDeck.cards.Nodup
    ∧ (∀ s : CardSuite, ∀ r : CardRank, Card.mk s r ∈ generateStandardDeck.cards)
    ∧ generateStandardDeck.cards = standardGenOrder.reverse := by decide

theorem set_cons_perm {α : Type} :
    ∀ (xs : List α) (m : Nat), (hm : m < xs.length) → ∀ (x : α),
    (xs[m] :: xs.set m x).Perm (x :: xs) := by
  intro xs
  induction xs with
  | nil => intro m hm; simp at hm
  | cons y ys ihy =>
    intro m hm x
    rcases m with _ | k
    · simp only [List.getElem_cons_zero, List.set_cons_zero]
      exact List.Perm.swap x y ys
    · simp only [List.getElem_cons_succ]
      have hk : k < ys.length := by
        simp only [List.length_cons] at hm
        omega
      exact ((List.Perm.swap y (ys[k]) (ys.set k x)).trans
        ((ihy k hk x).cons y)).trans (List.Perm.swap x y ys)

theorem set_set_perm {α : Type} :
    ∀ (l : List α) (i j : Nat), (hi : i < l.length) → (hj : j < l.length) →
    ((l.set i l[j]).set j l[i]).Perm l := by
  intro l
  induction l with
  | nil => intro i j hi; simp at hi
  | cons x xs ihx =>
    intro i j hi hj
    rcases i with _ | k <;> rcases j with _ | m
    · exact List.Perm.refl _
    · have hm : m < xs.length := by
        simp only [List.length_cons] at hj
        omega
      simp only [List.getElem_cons_zero, List.getElem_cons_succ, List.set_cons_zero]
      show (xs[m] :: xs.set m x).Perm (x :: xs)
      exact set_cons_perm xs m hm x
    · have hk : k < xs.length := by
        simp only [List.length_cons] at hi
        omega
      simp only [List.getElem_cons_zero, List.getElem_cons_succ]
      show (xs[k] :: xs.set k x).Perm (x :: xs)
      exact set_cons_perm xs k hk x
    · have hk : k < xs.length := by
        simp only [List.length_cons] at hi
        omega
      have hm : m < xs.length := by
        simp only [List.length_cons] at hj
        omega
      simp only [List.getElem_cons_succ]
      show (x :: (xs.set k xs[m]).set m xs[k]).Perm (x :: xs)
      exact (ihx k m hk hm).cons x

theorem swapIdx_perm {α : Type} (l : List α) (i j : Nat) : (swapIdx l i j).Perm l := by
  rw [swapIdx]
  rcases h1 : l[i]? with _ | a
  · exact List.Perm.refl _
  · rcases h2 : l[j]? with _ | b
    · exact List.Perm.refl _
    · obtain ⟨hi, ha⟩ := List.getElem?_eq_some.mp h1
      obtain ⟨hj, hb⟩ := List.getElem?_eq_some.mp h2
      rw [← ha, ← hb]
      exact set_set_perm l i j hi hj

theorem swapIdx_length {α : Type} (l : List α) (i j : Nat) :
    (swapIdx l i j).length = l.length := by
  rw [swapIdx]
  rcases h1 : l[i]? with _ | a
  · rfl
  · rcases h2 : l[j]? with _ | b
    · rfl
    · simp [List.length_set]

theorem swapIdx_cons_succ {α : Type} (x : α) (rest : List α) (i j : Nat) :
    swapIdx (x :: rest) (i + 1) (j + 1) = x :: swapIdx rest i j := by
  rw [swapIdx, swapIdx]
  simp only [List.getElem?_cons_succ]
  rcases h1 : rest[i]? with _ | a
  · rfl
  · rcases h2 : rest[j]? with _ | b
    · rfl
    · rfl

theorem shuffleLoop_perm {α : Type} :
    ∀ (offs : List Nat) (l : List α) (i : Nat), (shuffleLoop l offs i).Perm l := by
  intro offs
  induction offs with
  | nil => intro l i; exact List.Perm.refl _
  | cons o offs iho =>
    intro l i
    exact (iho (swapIdx l i o) (i + 1)).trans (swapIdx_perm l i o)

theorem shuffle_perm {α : Type} (l : List α) (offs : List Nat) : (shuffle l offs).Perm l :=
  shuffleLoop_perm offs l 0

theorem shuffleLoop_cons_shift {α : Type} :
    ∀ (offs : List Nat) (x : α) (rest : List α) (i : Nat), (∀ o ∈ offs, 1 ≤ o) →
    shuffleLoop (x :: rest) offs (i + 1) = x :: shuffleLoop rest (offs.map (· - 1)) i := by
  intro offs
  induction offs with
  | nil => intro x rest i _; rfl
  | cons o offs iho =>
    intro x rest i hone
    obtain ⟨o', rfl⟩ : ∃ o', o = o' + 1 := ⟨o - 1, by have := hone o (by simp); omega⟩
    show shuffleLoop (swapIdx (x :: rest) (i + 1) (o' + 1)) offs (i + 2)
      = x :: shuffleLoop rest ((o' + 1 - 1) :: offs.map (· - 1)) i
    rw [swapIdx_cons_succ]
    rw [iho x (swapIdx rest i o') (i + 1) (fun a ha => hone a (by simp [ha]))]
    rfl

theorem swapIdx_zero_eq {α : Type} :
    ∀ (l : List α) (o : Nat), (ho : o < l.length) →
    swapIdx l 0 o = l[o] :: swapRem l o := by
  intro l o ho
  rcases l with _ | ⟨x, xs⟩
  · simp at ho
  · rcases o with _ | m
    · show swapIdx (x :: xs) 0 0 = x :: swapRem (x :: xs) 0
      rw [swapRem, swapIdx]
      simp
    · have hm : m < xs.length := by
        simp only [List.length_cons] at ho
        omega
      rw [swapRem, swapIdx]
      simp only [List.getElem?_cons_zero, List.getElem?_cons_succ,
        List.getElem?_eq_getElem hm, List.getElem_cons_succ]
      rfl

theorem swapRem_length {α : Type} (l : List α) (o : Nat) (ho : o < l.length) :
    (swapRem l o).length + 1 = l.length := by
  have h1 : (swapIdx l 0 o).length = l.length := swapIdx_length l 0 o
  rw [swapIdx_zero_eq l o ho] at h1
  simpa using h1

theorem swapRem_perm_erase (l : List Nat) (o : Nat) (ho : o < l.length) :
    (swapRem l o).Perm (l.erase l[o]) := by
  have h1 : (l[o] :: swapRem l o).Perm l := by
    rw [← swapIdx_zero_eq l o ho]
    exact swapIdx_perm l 0 o
  have h2 : l.Perm (l[o] :: l.erase l[o]) := List.perm_cons_erase (List.getElem_mem ho)
  exact (h1.trans h2).cons_inv

theorem swapRem_nodup (l : List Nat) (o : Nat) (ho : o < l.length) (hnd : l.Nodup) :
    (swapRem l o).Nodup :=
  (swapRem_perm_erase l o ho).nodup_iff.mpr (hnd.erase _)

theorem shuffle_cons_decomp {α : Type} (l : List α) (o : Nat) (rest : List Nat)
    (ho : o < l.length) (hone : ∀ x ∈ rest, 1 ≤ x) :
    shuffle l (o :: rest) = l[o] :: shuffle (swapRem l o) (rest.map (· - 1)) := by
  show shuffleLoop (swapIdx l 0 o) rest 1 = l[o] :: shuffleLoop (swapRem l o) (rest.map (· - 1)) 0
  rw [swapIdx_zero_eq l o ho]
  exact shuffleLoop_cons_shift rest (l[o]) (swapRem l o) 0 hone

theorem validChoices_cons {n o : Nat} {rest : List Nat}
    (h : ValidChoices (n + 1) (o :: rest)) :
    o < n + 1 ∧ ValidChoices n (rest.map (· - 1)) ∧ (∀ x ∈ rest, 1 ≤ x) := by
  obtain ⟨hlen, hcond⟩ := h
  simp only [List.length_cons] at hlen
  have hrn : rest.length = n := by omega
  have ho : o < n + 1 := by
    have h0 := (hcond 0 (by omega)).2
    rwa [List.getD_cons_zero] at h0
  have hone : ∀ x ∈ rest, 1 ≤ x := by
    intro x hx
    obtain ⟨k, hk, rfl⟩ := List.mem_iff_getElem.mp hx
    have hc := (hcond (k + 1) (by omega)).1
    rw [List.getD_cons_succ, List.getD_eq_getElem _ _ hk] at hc
    omega
  refine ⟨ho, ⟨by simp [hrn], ?_⟩, hone⟩
  intro k hk
  have hkr : k < rest.length := by omega
  have hcl := hcond (k + 1) (by omega)
  rw [List.getD_cons_succ, List.getD_eq_getElem _ _ hkr] at hcl
  have hmap : (rest.map (· - 1)).getD k 0 = rest[k] - 1 := by
    rw [List.getD_eq_getElem _ _ (by simpa using hkr), List.getElem_map]
  rw [hmap]
  omega

theorem validChoices_lift {n o : Nat} {rest : List Nat}
    (ho : o < n + 1) (h : ValidChoices n rest) :
    ValidChoices (n + 1) (o :: rest.map (· + 1)) := by
  obtain ⟨hlen, hcond⟩ := h
  refine ⟨by simp [hlen], ?_⟩
  intro k hk
  rcases k with _ | k
  · rw [List.getD_cons_zero]
    omega
  · have hkn : k < n := by omega
    have hkr : k < rest.length := by omega
    have hc := hcond k hkn
    rw [List.getD_eq_getElem _ _ hkr] at hc
    rw [List.getD_cons_succ, List.getD_eq_getElem _ _ (by simpa using hkr), List.getElem_map]
    omega

theorem map_add_one_sub_one (rest : List Nat) : (rest.map (· + 1)).map (· - 1) = rest := by
  simp [List.map_map, Function.comp_def]

theorem map_sub_one_inj : ∀ (A B : List Nat), (∀ x ∈ A, 1 ≤ x) → (∀ x ∈ B, 1 ≤ x) →
    A.map (· - 1) = B.map (· - 1) → A = B := by
  intro A
  induction A with
  | nil =>
    intro B _ _ h
    cases B with
    | nil => rfl
    | cons b B => simp at h
  | cons a A ihA =>
    intro B hA hB h
    cases B with
    | nil => simp at h
    | cons b B =>
      simp only [List.map_cons, List.cons.injEq] at h
      have ha := hA a (by simp)
      have hb := hB b (by simp)
      have hab : a = b := by omega
      rw [hab, ihA B (fun x hx => hA x (by simp [hx])) (fun x hx => hB x (by simp [hx])) h.2]

theorem shuffle_bijOn_aux : ∀ (n : Nat) (l : List Nat), l.length = n → l.Nodup →
    Set.BijOn (fun offs => shuffle l offs) {offs | ValidChoices n offs} {m | m.Perm l} := by
  intro n
  induction n with
  | zero =>
    intro l hlen _
    obtain rfl := List.length_eq_zero.mp hlen
    refine ⟨?_, ?_, ?_⟩
    · intro offs _
      exact shuffle_perm [] offs
    · intro o1 h1 o2 h2 _
      have e1 : o1 = [] := List.length_eq_zero.mp h1.1
      have e2 : o2 = [] := List.length_eq_zero.mp h2.1
      rw [e1, e2]
    · intro m hm
      have hmn : m = [] := List.Perm.eq_nil hm
      exact ⟨[], ⟨rfl, fun k hk => absurd hk (Nat.not_lt_zero k)⟩, by rw [hmn]; rfl⟩
  | succ n ih =>
    intro l hlen hnd
    have hne : l ≠ [] := by
      intro h
      rw [h] at hlen
      simp at hlen
    refine ⟨?_, ?_, ?_⟩
    · intro offs _
      exact shuffle_perm l offs
    · intro offs1 h1 offs2 h2 heq
      simp only [Set.mem_setOf_eq] at h1 h2
      have hne1 : offs1 ≠ [] := by
        intro h
        rw [h] at h1
        obtain ⟨hl1, _⟩ := h1
        simp at hl1
      have hne2 : offs2 ≠ [] := by
        intro h
        rw [h] at h2
        obtain ⟨hl2, _⟩ := h2
        simp at hl2
      obtain ⟨o1, r1, rfl⟩ := List.exists_cons_of_ne_nil hne1
      obtain ⟨o2, r2, rfl⟩ := List.exists_cons_of_ne_nil hne2
      obtain ⟨ho1, hv1, hone1⟩ := validChoices_cons h1
      obtain ⟨ho2, hv2, hone2⟩ := validChoices_cons h2
      have hl1 : o1 < l.length := by omega
      have hl2 : o2 < l.length := by omega
      simp only at heq
      rw [shuffle_cons_decomp l o1 r1 hl1 hone1, shuffle_cons_decomp l o2 r2 hl2 hone2] at heq
      have hhead : l[o1] = l[o2] := by
        have := congrArg (fun t => t.headI) heq
        simpa using this
      have ho12 : o1 = o2 := (List.Nodup.getElem_inj_iff hnd).mp hhead
      subst ho12
      have htail : shuffle (swapRem l o1) (r1.map (· - 1))
          = shuffle (swapRem l o1) (r2.map (· - 1)) := by
        have := congrArg (fun t => t.tail) heq
        simpa using this
      have hrlen : (swapRem l o1).length = n := by
        have := swapRem_length l o1 hl1
        omega
      have hrnd : (swapRem l o1).Nodup := swapRem_nodup l o1 hl1 hnd
      have hmaps := (ih (swapRem l o1) hrlen hrnd).2.1 hv1 hv2 htail
      rw [map_sub_one_inj r1 r2 hone1 hone2 hmaps]
    · intro m hm
      simp only [Set.mem_setOf_eq] at hm
      have hml : m ≠ [] := by
        intro h
        rw [h] at hm
        have := hm.length_eq
        rw [hlen] at this
        simp at this
      obtain ⟨h, mt, rfl⟩ := List.exists_cons_of_ne_nil hml
      have hh : h ∈ l := hm.mem_iff.mp (by simp)
      have ho : l.indexOf h < l.length := List.indexOf_lt_length.mpr hh
      have hlo : l[l.indexOf h] = h := List.getElem_indexOf ho
      have hmt : mt.Perm (swapRem l (l.indexOf h)) := by
        have h1 : mt.Perm (l.erase h) := by
          have h2 : l.Perm (h :: l.erase h) := List.perm_cons_erase hh
          exact (hm.trans h2).cons_inv
        have h3 : (swapRem l (l.indexOf h)).Perm (l.erase h) := by
          have := swapRem_perm_erase l (l.indexOf h) ho
          rwa [hlo] at this
        exact h1.trans h3.symm
      have hrlen : (swapRem l (l.indexOf h)).length = n := by
        have := swapRem_length l (l.indexOf h) ho
        omega
      have hrnd : (swapRem l (l.indexOf h)).Nodup := swapRem_nodup l (l.indexOf h) ho hnd
      obtain ⟨rest', hrest', heq'⟩ := (ih (swapRem l (l.indexOf h)) hrlen hrnd).2.2 hmt
      refine ⟨l.indexOf h :: rest'.map (· + 1), validChoices_lift (by omega) hrest', ?_⟩
      show shuffle l (l.indexOf h :: rest'.map (· + 1)) = h :: mt
      rw [shuffle_cons_decomp l (l.indexOf h) (rest'.map (· + 1)) ho ?_]
      · have heq2 : shuffle (swapRem l (l.indexOf h)) rest' = mt := heq'
        rw [map_add_one_sub_one, hlo, heq2]
      · intro x hx
        obtain ⟨y, _, rfl⟩ := List.mem_map.mp hx
        omega

/-- C7: the shuffle loop swaps, for each position `i` in forward order, the
card at `i` with the card at the drawn offset in `[i, size-1]` (definitions
`shuffle` / `ValidChoices`); every run permutes the deck, and for a fixed
deck size the map from valid draw sequences to outcomes is a bijection onto
all permutations, so an unbiased source produces a uniformly random
permutation. -/
theorem shuffle_uniform (n : Nat) :
    (∀ (l : List Card) (offs : List Nat), (shuffle l offs).Perm l)
    ∧ Set.BijOn (fun offs => shuffle (List.range n) offs)
        {offs | ValidChoices n offs} {m | m.Perm (List.range n)} :=
  ⟨fun l offs => shuffle_perm l offs,
    shuffle_bijOn_aux n (List.range n) (List.length_range n) (List.nodup_range n)⟩

end DeckSpec
